import Mathlib

/-!
Verification of the spotify-youtube-converter track-resolution engine.

The repository's edge function `convert-to-youtube/index.ts` contains three
variants of the conversion pipeline.  We shallowly embed the pure parts of
each variant that carry the algorithmic content:

* variant A (googleapis search): `cleanTrackName`, `normalize` (the
  `[^a-z0-9\s]/gi` class), the scoring loop of `searchYouTubeMusic`, and the
  sequential conversion loop of its request handler;
* variant C (youtubei.js search): `normalize` (the `[^\w\s]/g` class),
  the Levenshtein `similarity`, `cleanTitle`, the query list, the scoring
  and best-of selection of `searchYouTubeTrack` with its `0.55` acceptance
  threshold, and its conversion loop, which does not catch search errors.

JavaScript strings are modelled as `String`/`List Char`; `undefined`/`null`
values as `Option`; thrown exceptions as `Except String`; the fractional
scores as `ℚ`.  Regex replacements are embedded as executable scanners that
implement the concrete patterns' JS semantics (leftmost match, lazy/greedy
closing, `.` not matching line terminators, global vs first-match).
-/

/-- The characters matched by the JavaScript regex class `\s` (also the set
removed by `String.prototype.trim`). -/
def jsSpaces : List Char :=
  ['\t', '\n', '\u000B', '\u000C', '\r', ' ', '\u00A0', '\u1680',
   '\u2000', '\u2001', '\u2002', '\u2003', '\u2004', '\u2005', '\u2006',
   '\u2007', '\u2008', '\u2009', '\u200A', '\u2028', '\u2029', '\u202F',
   '\u205F', '\u3000', '\uFEFF']

/-- JS whitespace test (`\s`). -/
def isJsSpace (c : Char) : Bool := jsSpaces.contains c

/-- JS regex line terminators, which `.` does not match. -/
def isLineTerm (c : Char) : Bool :=
  c = '\n' || c = '\r' || c = '\u2028' || c = '\u2029'

/-- The JS regex class `\w`: ASCII letters, digits and underscore. -/
def isWordChar (c : Char) : Bool :=
  c.isUpper || c.isLower || c.isDigit || c = '_'

/-- The class `[a-z0-9\s]` under the `i` flag: ASCII letters (either case),
digits, or JS whitespace. -/
def isAzDigitSpace (c : Char) : Bool :=
  c.isLower || c.isUpper || c.isDigit || isJsSpace c

/-- Helper for `collapseWs`: the Boolean records whether the previous kept
character came from a whitespace run (so further whitespace is dropped). -/
def collapseWsAux : Bool → List Char → List Char
  | _, [] => []
  | prevSp, c :: rest =>
    if isJsSpace c then
      if prevSp then collapseWsAux true rest
      else ' ' :: collapseWsAux true rest
    else c :: collapseWsAux false rest

/-- Replace each maximal run of JS whitespace by one space
(`.replace(/\s+/g, " ")`). -/
def collapseWs (l : List Char) : List Char := collapseWsAux false l

/-- The JS `String.prototype.trim` on a character list. -/
def jsTrim (l : List Char) : List Char :=
  ((l.dropWhile isJsSpace).reverse.dropWhile isJsSpace).reverse

/-- The `normalize` of the googleapis variant:
`s.toLowerCase().replace(/[^a-z0-9\s]/gi, " ").replace(/\s+/g, " ").trim()`. -/
def normalizeA (s : String) : String :=
  let l1 := s.toList.map Char.toLower
  let l2 := l1.map (fun c => if isAzDigitSpace c then c else ' ')
  String.mk (jsTrim (collapseWs l2))

/-- The `normalize` of the youtubei.js variant:
`text.toLowerCase().replace(/[^\w\s]/g, " ").replace(/\s+/g, " ").trim()`. -/
def normalizeC (s : String) : String :=
  let l1 := s.toList.map Char.toLower
  let l2 := l1.map (fun c => if isWordChar c || isJsSpace c then c else ' ')
  String.mk (jsTrim (collapseWs l2))

/-- Modelled from the spec: a normalizer that lower-cases, replaces every
character that is neither alphanumeric nor whitespace with a space, collapses
whitespace runs to one space, and trims. -/
def normSpec (s : String) : String :=
  let l1 := s.toList.map Char.toLower
  let l2 := l1.map (fun c => if c.isAlphanum || isJsSpace c then c else ' ')
  String.mk (jsTrim (collapseWs l2))

/-- Modelled from the spec, adjusted for the `\w` class: alphanumerics,
underscore, or whitespace are kept. -/
def normSpecW (s : String) : String :=
  let l1 := s.toList.map Char.toLower
  let l2 := l1.map (fun c => if c.isAlphanum || c = '_' || isJsSpace c then c else ' ')
  String.mk (jsTrim (collapseWs l2))

/-- Classic unit-cost Levenshtein distance (insert/delete/substitute), the
standard recursive definition.  This is the specification-side notion of
"classic single-character-edit distance". -/
def levSpec : List Char → List Char → Nat
  | [], ys => ys.length
  | x :: xs, [] => (x :: xs).length
  | x :: xs, y :: ys =>
    if x = y then levSpec xs ys
    else min (levSpec xs ys) (min (levSpec (x :: xs) ys) (levSpec xs (y :: ys))) + 1
termination_by xs ys => xs.length + ys.length
decreasing_by all_goals simp only [List.length_cons]; omega

/-- One inner-loop pass of the source's `similarity` matrix fill: given the
previous row (suffix) `pd :: pr`, the remaining column characters `ac :: as_`
of `a`, and the entry `left` just computed in the current row, produce the
rest of the current row via
`matrix[i][j] = b[i-1] == a[j-1] ? matrix[i-1][j-1] : min(diag, left, above) + 1`. -/
def buildRow (bc : Char) : List Char → List Nat → Nat → List Nat
  | [], _, _ => []
  | _ :: _, [], _ => []
  | ac :: as_, pd :: pr, left =>
    let above := pr.headD 0
    let cur := if bc = ac then pd else min pd (min left above) + 1
    cur :: buildRow bc as_ pr cur

/-- The outer loop of the matrix fill: starting from row `0 ... a.length`,
process the characters of `b` one row at a time; row `i` starts with `i`
(`matrix[i][0] = i`). -/
def levRows (a : List Char) : List Char → List Nat → Nat → List Nat
  | [], prev, _ => prev
  | bc :: bs, prev, i => levRows a bs (i :: buildRow bc a prev i) (i + 1)

/-- The value `matrix[b.length][a.length]` of the source's `similarity` function. -/
def matrixDist (a b : List Char) : Nat :=
  (levRows a b (List.range (a.length + 1)) 1).getLastD 0

/-- The source's Levenshtein `similarity`:
`if (!a || !b) return 0;` then `1 - matrix[b.length][a.length] / Math.max(a.length, b.length)`. -/
def similarity (a b : String) : ℚ :=
  if a = "" ∨ b = "" then 0
  else 1 - (matrixDist a.toList b.toList : ℚ) /
      (max a.toList.length b.toList.length : ℕ)

example : matrixDist "abc".toList "abc".toList = 0 := by decide
example : matrixDist "abc".toList "xyz".toList = 3 := by decide
example : matrixDist "kitten".toList "sitting".toList = 3 := by decide
example : similarity "abc" "abc" = 1 := by
  unfold similarity
  rw [if_neg (by decide : ¬("abc" = "" ∨ "abc" = ""))]
  rw [(by decide : matrixDist "abc".toList "abc".toList = 0)]
  rw [(by decide : "abc".toList.length ⊔ "abc".toList.length = 3)]
  norm_num
example : similarity "kitten" "sitting" = 1 - 3 / 7 := by
  unfold similarity
  rw [if_neg (by decide : ¬("kitten" = "" ∨ "sitting" = ""))]
  rw [(by decide : matrixDist "kitten".toList "sitting".toList = 3)]
  rw [(by decide : "kitten".toList.length ⊔ "sitting".toList.length = 7)]
  norm_num

lemma levSpec_nil_left (ys : List Char) : levSpec [] ys = ys.length := by
  simp [levSpec]

lemma levSpec_nil_right (xs : List Char) : levSpec xs [] = xs.length := by
  cases xs <;> simp [levSpec]

lemma levSpec_cons_cons (x y : Char) (xs ys : List Char) :
    levSpec (x :: xs) (y :: ys) =
      if x = y then levSpec xs ys
      else min (levSpec xs ys)
        (min (levSpec (x :: xs) ys) (levSpec xs (y :: ys))) + 1 := by
  simp [levSpec]

lemma levSpec_comm_aux :
    ∀ (n : Nat) (xs ys : List Char), xs.length + ys.length ≤ n →
      levSpec xs ys = levSpec ys xs := by
  intro n
  induction n with
  | zero =>
    intro xs ys h
    have hx : xs = [] := by
      cases xs with
      | nil => rfl
      | cons a l => simp at h
    have hy : ys = [] := by
      cases ys with
      | nil => rfl
      | cons a l => simp at h
    rw [hx, hy]
  | succ n ih =>
    intro xs ys h
    cases xs with
    | nil => rw [levSpec_nil_left, levSpec_nil_right]
    | cons x xs =>
      cases ys with
      | nil => rw [levSpec_nil_left, levSpec_nil_right]
      | cons y ys =>
        rw [levSpec_cons_cons, levSpec_cons_cons]
        simp only [List.length_cons] at h
        have h1 : xs.length + ys.length ≤ n := by omega
        have h2 : (x :: xs).length + ys.length ≤ n := by
          simp only [List.length_cons]; omega
        have h3 : xs.length + (y :: ys).length ≤ n := by
          simp only [List.length_cons]; omega
        have e1 := ih xs ys h1
        have e2 := ih (x :: xs) ys h2
        have e3 := ih xs (y :: ys) h3
        by_cases hxy : x = y
        · subst hxy
          rw [if_pos rfl, if_pos rfl, e1]
        · rw [if_neg hxy, if_neg (fun hyx => hxy hyx.symm), e1, e2, e3]
          have := min_comm (levSpec ys (x :: xs)) (levSpec (y :: ys) xs)
          omega

/-- The classic edit distance is symmetric. -/
lemma levSpec_comm (xs ys : List Char) : levSpec xs ys = levSpec ys xs :=
  levSpec_comm_aux (xs.length + ys.length) xs ys le_rfl

lemma levSpec_cons_bounds_aux :
    ∀ (n : Nat) (xs ys : List Char), xs.length + ys.length ≤ n →
      (∀ x, levSpec (x :: xs) ys ≤ levSpec xs ys + 1) ∧
      (∀ x, levSpec xs ys ≤ levSpec (x :: xs) ys + 1) := by
  intro n
  induction n with
  | zero =>
    intro xs ys h
    have hx : xs = [] := by cases xs with
      | nil => rfl
      | cons a l => simp at h
    have hy : ys = [] := by cases ys with
      | nil => rfl
      | cons a l => simp at h
    subst hx; subst hy
    constructor <;> intro x <;> simp [levSpec_nil_left, levSpec_nil_right]
  | succ n ih =>
    intro xs ys h
    constructor
    · intro x
      cases ys with
      | nil => simp [levSpec_nil_right]
      | cons y yr =>
        rw [levSpec_cons_cons]
        by_cases hxy : x = y
        · rw [if_pos hxy]
          -- need levSpec xs yr ≤ levSpec xs (y :: yr) + 1
          have hsm : yr.length + xs.length ≤ n := by
            simp only [List.length_cons] at h; omega
          have := ((ih yr xs hsm).2 y)
          rw [levSpec_comm yr xs, levSpec_comm (y :: yr) xs] at this
          omega
        · rw [if_neg hxy]
          have h3 : min (levSpec xs yr)
              (min (levSpec (x :: xs) yr) (levSpec xs (y :: yr))) ≤
              levSpec xs (y :: yr) := le_trans (min_le_right _ _) (min_le_right _ _)
          omega
    · intro x
      cases ys with
      | nil =>
        simp only [levSpec_nil_right, List.length_cons]
        omega
      | cons y yr =>
        rw [levSpec_cons_cons]
        by_cases hxy : x = y
        · rw [if_pos hxy]
          -- need levSpec xs (y :: yr) ≤ levSpec xs yr + 1
          have hsm : yr.length + xs.length ≤ n := by
            simp only [List.length_cons] at h; omega
          have := ((ih yr xs hsm).1 y)
          rw [levSpec_comm yr xs, levSpec_comm (y :: yr) xs] at this
          omega
        · rw [if_neg hxy]
          have hsm : xs.length + yr.length ≤ n := by
            simp only [List.length_cons] at h; omega
          have hB1 : levSpec xs (y :: yr) ≤ levSpec xs yr + 1 := by
            have h' : yr.length + xs.length ≤ n := by omega
            have := ((ih yr xs h').1 y)
            rw [levSpec_comm yr xs, levSpec_comm (y :: yr) xs] at this
            omega
          have hA2 : levSpec xs yr ≤ levSpec (x :: xs) yr + 1 := ((ih xs yr hsm).2 x)
          have hmin := min_le_left (levSpec xs yr)
            (min (levSpec (x :: xs) yr) (levSpec xs (y :: yr)))
          have hmin2 : min (levSpec xs yr)
              (min (levSpec (x :: xs) yr) (levSpec xs (y :: yr))) ≤
              levSpec (x :: xs) yr := le_trans (min_le_right _ _) (min_le_left _ _)
          have hmin3 : min (levSpec xs yr)
              (min (levSpec (x :: xs) yr) (levSpec xs (y :: yr))) ≤
              levSpec xs (y :: yr) := le_trans (min_le_right _ _) (min_le_right _ _)
          -- LHS = levSpec xs (y :: yr); RHS = min3 + 1 + 1; min3 ≥ each case
          rcases le_total (levSpec xs yr)
              (min (levSpec (x :: xs) yr) (levSpec xs (y :: yr))) with hc | hc
          · -- min3 = levSpec xs yr
            have : min (levSpec xs yr)
                (min (levSpec (x :: xs) yr) (levSpec xs (y :: yr))) =
                levSpec xs yr := min_eq_left hc
            omega
          · have : min (levSpec xs yr)
                (min (levSpec (x :: xs) yr) (levSpec xs (y :: yr))) =
                min (levSpec (x :: xs) yr) (levSpec xs (y :: yr)) := min_eq_right hc
            rcases le_total (levSpec (x :: xs) yr) (levSpec xs (y :: yr)) with hd | hd
            · have h2 : min (levSpec (x :: xs) yr) (levSpec xs (y :: yr)) =
                  levSpec (x :: xs) yr := min_eq_left hd
              omega
            · have h2 : min (levSpec (x :: xs) yr) (levSpec xs (y :: yr)) =
                  levSpec xs (y :: yr) := min_eq_right hd
              omega

/-- Prepending one character to the first argument changes the edit distance
by at most one. -/
lemma levSpec_cons_left_le (x : Char) (xs ys : List Char) :
    levSpec (x :: xs) ys ≤ levSpec xs ys + 1 :=
  (levSpec_cons_bounds_aux (xs.length + ys.length) xs ys le_rfl).1 x

/-- Removing the head character of the first argument changes the edit
distance by at most one. -/
lemma levSpec_le_cons_left (x : Char) (xs ys : List Char) :
    levSpec xs ys ≤ levSpec (x :: xs) ys + 1 :=
  (levSpec_cons_bounds_aux (xs.length + ys.length) xs ys le_rfl).2 x

/-- Prepending one character to the second argument changes the edit distance
by at most one. -/
lemma levSpec_cons_right_le (y : Char) (xs ys : List Char) :
    levSpec xs (y :: ys) ≤ levSpec xs ys + 1 := by
  rw [levSpec_comm xs (y :: ys), levSpec_comm xs ys]
  exact levSpec_cons_left_le y ys xs

/-- A single edit-script operation: keep/substitute, delete, or insert. -/
inductive EOp where
  | rep (x y : Char)
  | del (x : Char)
  | ins (y : Char)
deriving DecidableEq

/-- Unit cost of one operation: a `rep` of equal characters is free,
everything else costs one. -/
def opCost : EOp → Nat
  | .rep x y => if x = y then 0 else 1
  | .del _ => 1
  | .ins _ => 1

/-- Total cost of an edit script. -/
def scriptCost (ops : List EOp) : Nat := (ops.map opCost).sum

/-- Relation `Edits ops xs ys`: the script `ops` transforms `xs` into `ys`,
consuming both lists from the front. -/
inductive Edits : List EOp → List Char → List Char → Prop where
  | nil : Edits [] [] []
  | rep {ops xs ys} (x y : Char) : Edits ops xs ys →
      Edits (.rep x y :: ops) (x :: xs) (y :: ys)
  | del {ops xs ys} (x : Char) : Edits ops xs ys →
      Edits (.del x :: ops) (x :: xs) ys
  | ins {ops xs ys} (y : Char) : Edits ops xs ys →
      Edits (.ins y :: ops) xs (y :: ys)

lemma scriptCost_cons (op : EOp) (ops : List EOp) :
    scriptCost (op :: ops) = opCost op + scriptCost ops := by
  simp [scriptCost]

/-- The edit distance is a lower bound on the cost of any edit script. -/
lemma levSpec_le_scriptCost {ops : List EOp} {xs ys : List Char}
    (h : Edits ops xs ys) : levSpec xs ys ≤ scriptCost ops := by
  induction h with
  | nil => simp [levSpec_nil_left, scriptCost]
  | rep x y hrest ih =>
    rw [scriptCost_cons, levSpec_cons_cons]
    by_cases hxy : x = y
    · rw [if_pos hxy]
      simp only [opCost, if_pos hxy]
      omega
    · rw [if_neg hxy]
      simp only [opCost, if_neg hxy]
      omega
  | del x hrest ih =>
    rename_i ops' xs' ys'
    rw [scriptCost_cons]
    have := levSpec_cons_left_le x xs' ys'
    simp only [opCost]
    omega
  | ins y hrest ih =>
    rename_i ops' xs' ys'
    rw [scriptCost_cons]
    have := levSpec_cons_right_le y xs' ys'
    simp only [opCost]
    omega

lemma edits_map_ins (ys : List Char) : Edits (ys.map .ins) [] ys := by
  induction ys with
  | nil => exact .nil
  | cons y ys ih => exact .ins y ih

lemma edits_map_del (xs : List Char) : Edits (xs.map .del) xs [] := by
  induction xs with
  | nil => exact .nil
  | cons x xs ih => exact .del x ih

lemma scriptCost_map_ins (ys : List Char) :
    scriptCost (ys.map .ins) = ys.length := by
  induction ys with
  | nil => simp [scriptCost]
  | cons y ys ih =>
    rw [List.map_cons, scriptCost_cons, ih]
    simp only [opCost, List.length_cons]
    omega

lemma scriptCost_map_del (xs : List Char) :
    scriptCost (xs.map .del) = xs.length := by
  induction xs with
  | nil => simp [scriptCost]
  | cons x xs ih =>
    rw [List.map_cons, scriptCost_cons, ih]
    simp only [opCost, List.length_cons]
    omega

/-- The edit distance is achieved by some edit script. -/
lemma exists_script :
    ∀ (n : Nat) (xs ys : List Char), xs.length + ys.length ≤ n →
      ∃ ops, Edits ops xs ys ∧ scriptCost ops = levSpec xs ys := by
  intro n
  induction n with
  | zero =>
    intro xs ys h
    have hx : xs = [] := by cases xs with
      | nil => rfl
      | cons a l => simp at h
    have hy : ys = [] := by cases ys with
      | nil => rfl
      | cons a l => simp at h
    subst hx; subst hy
    exact ⟨[], .nil, by simp [scriptCost, levSpec_nil_left]⟩
  | succ n ih =>
    intro xs ys h
    cases xs with
    | nil =>
      exact ⟨ys.map .ins, edits_map_ins ys, by
        rw [scriptCost_map_ins, levSpec_nil_left]⟩
    | cons x xr =>
      cases ys with
      | nil =>
        exact ⟨(x :: xr).map .del, edits_map_del _, by
          rw [scriptCost_map_del, levSpec_nil_right]⟩
      | cons y yr =>
        simp only [List.length_cons] at h
        by_cases hxy : x = y
        · obtain ⟨ops, hops, hcost⟩ := ih xr yr (by omega)
          refine ⟨.rep x y :: ops, .rep x y hops, ?_⟩
          rw [scriptCost_cons, levSpec_cons_cons, if_pos hxy]
          simp [opCost, hxy, hcost]
        · have hd1 := ih xr yr (by omega)
          have hd2 := ih (x :: xr) yr (by simp only [List.length_cons]; omega)
          have hd3 := ih xr (y :: yr) (by simp only [List.length_cons]; omega)
          rcases le_total (levSpec xr yr)
              (min (levSpec (x :: xr) yr) (levSpec xr (y :: yr))) with hc | hc
          · obtain ⟨ops, hops, hcost⟩ := hd1
            refine ⟨.rep x y :: ops, .rep x y hops, ?_⟩
            rw [scriptCost_cons, levSpec_cons_cons, if_neg hxy]
            rw [min_eq_left hc]
            simp only [opCost, if_neg hxy]
            omega
          · rcases le_total (levSpec (x :: xr) yr) (levSpec xr (y :: yr)) with hd | hd
            · obtain ⟨ops, hops, hcost⟩ := hd2
              refine ⟨.ins y :: ops, .ins y hops, ?_⟩
              rw [scriptCost_cons, levSpec_cons_cons, if_neg hxy]
              rw [min_eq_right hc, min_eq_left hd]
              simp only [opCost]
              omega
            · obtain ⟨ops, hops, hcost⟩ := hd3
              refine ⟨.del x :: ops, .del x hops, ?_⟩
              rw [scriptCost_cons, levSpec_cons_cons, if_neg hxy]
              rw [min_eq_right hc, min_eq_right hd]
              simp only [opCost]
              omega

lemma edits_append_rep {ops : List EOp} {xs ys : List Char} (x y : Char)
    (h : Edits ops xs ys) :
    Edits (ops ++ [.rep x y]) (xs ++ [x]) (ys ++ [y]) := by
  induction h with
  | nil => exact .rep x y .nil
  | rep a b _ ih => exact .rep a b ih
  | del a _ ih => exact .del a ih
  | ins b _ ih => exact .ins b ih

lemma edits_append_del {ops : List EOp} {xs ys : List Char} (x : Char)
    (h : Edits ops xs ys) :
    Edits (ops ++ [.del x]) (xs ++ [x]) ys := by
  induction h with
  | nil => exact .del x .nil
  | rep a b _ ih => exact .rep a b ih
  | del a _ ih => exact .del a ih
  | ins b _ ih => exact .ins b ih

lemma edits_append_ins {ops : List EOp} {xs ys : List Char} (y : Char)
    (h : Edits ops xs ys) :
    Edits (ops ++ [.ins y]) xs (ys ++ [y]) := by
  induction h with
  | nil => exact .ins y .nil
  | rep a b _ ih => exact .rep a b ih
  | del a _ ih => exact .del a ih
  | ins b _ ih => exact .ins b ih

/-- Reversing an edit script edits the reversed strings. -/
lemma edits_reverse {ops : List EOp} {xs ys : List Char}
    (h : Edits ops xs ys) : Edits ops.reverse xs.reverse ys.reverse := by
  induction h with
  | nil => exact .nil
  | rep x y _ ih =>
    simp only [List.reverse_cons]
    exact edits_append_rep x y ih
  | del x _ ih =>
    simp only [List.reverse_cons]
    exact edits_append_del x ih
  | ins y _ ih =>
    simp only [List.reverse_cons]
    exact edits_append_ins y ih

lemma scriptCost_reverse (ops : List EOp) :
    scriptCost ops.reverse = scriptCost ops := by
  simp [scriptCost, List.map_reverse, List.sum_reverse]

/-- The classic edit distance is invariant under reversing both strings. -/
lemma levSpec_reverse (xs ys : List Char) :
    levSpec xs.reverse ys.reverse = levSpec xs ys := by
  have half : ∀ (p q : List Char), levSpec p.reverse q.reverse ≤ levSpec p q := by
    intro p q
    obtain ⟨ops, hops, hcost⟩ := exists_script (p.length + q.length) p q le_rfl
    have := levSpec_le_scriptCost (edits_reverse hops)
    rw [scriptCost_reverse, hcost] at this
    exact this
  refine le_antisymm (half xs ys) ?_
  have := half xs.reverse ys.reverse
  rwa [List.reverse_reverse, List.reverse_reverse] at this

/-- The intended value of matrix entry `(i, j)`: the edit distance between
the length-`i` prefix of `b` and the length-`j` prefix of `a` (stated on the
reversed prefixes so that the front-recursive `levSpec` peels the characters
the inner loop compares). -/
def ent (a b : List Char) (i j : Nat) : Nat :=
  levSpec ((b.take i).reverse) ((a.take j).reverse)

lemma ent_zero_right {a b : List Char} {i : Nat} (hi : i ≤ b.length) :
    ent a b i 0 = i := by
  simp [ent, levSpec_nil_right, List.length_take, Nat.min_eq_left hi]

lemma ent_zero_left {a b : List Char} {j : Nat} (hj : j ≤ a.length) :
    ent a b 0 j = j := by
  simp [ent, levSpec_nil_left, List.length_take, Nat.min_eq_left hj]

lemma take_succ_reverse {l : List Char} {n : Nat} (h : n < l.length) :
    (l.take (n + 1)).reverse = l[n] :: (l.take n).reverse := by
  rw [List.take_succ, List.getElem?_eq_getElem h]
  simp

lemma ent_succ_succ {a b : List Char} {i j : Nat}
    (hi : i < b.length) (hj : j < a.length) :
    ent a b (i + 1) (j + 1) =
      if b[i] = a[j] then ent a b i j
      else min (ent a b i j) (min (ent a b (i + 1) j) (ent a b i (j + 1))) + 1 := by
  unfold ent
  rw [take_succ_reverse hi, take_succ_reverse hj, levSpec_cons_cons]

lemma buildRow_spec (a b : List Char) (i : Nat) (hi : i < b.length) :
    ∀ (rem : List Char) (k : Nat) (ps : List Nat) (left : Nat),
      rem = a.drop k → k ≤ a.length →
      ps = (List.range (a.length + 1 - k)).map (fun t => ent a b i (k + t)) →
      left = ent a b (i + 1) k →
      buildRow b[i] rem ps left
        = (List.range (a.length - k)).map (fun t => ent a b (i + 1) (k + 1 + t)) := by
  intro rem
  induction rem with
  | nil =>
    intro k ps left hrem hk hps hleft
    have hk' : a.length ≤ k := by
      by_contra hlt
      push_neg at hlt
      have := List.drop_eq_getElem_cons (l := a) (n := k) hlt
      rw [← hrem] at this
      exact List.noConfusion this
    have hz : a.length - k = 0 := by omega
    rw [hz]
    cases ps <;> simp [buildRow]
  | cons ac rest ih =>
    intro k ps left hrem hk hps hleft
    have hklt : k < a.length := by
      by_contra hge
      push_neg at hge
      rw [List.drop_eq_nil_of_le hge] at hrem
      exact List.noConfusion hrem
    have hdrop : ac :: rest = a[k] :: a.drop (k + 1) := by
      rw [hrem]
      exact List.drop_eq_getElem_cons hklt
    have hpair : ac = a[k] ∧ rest = a.drop (k + 1) := by
      rw [List.cons.injEq] at hdrop
      exact hdrop
    have hac : a[k] = ac := hpair.1.symm
    have hrest : rest = a.drop (k + 1) := hpair.2
    have hlen : a.length + 1 - k = (a.length - k) + 1 := by omega
    rw [hlen, List.range_succ_eq_map, List.map_cons, List.map_map] at hps
    subst hps
    rw [buildRow]
    have hhead : (((List.range (a.length - k)).map
        ((fun t => ent a b i (k + t)) ∘ Nat.succ)).headD 0) = ent a b i (k + 1) := by
      have hpos : a.length - k = (a.length - k - 1) + 1 := by omega
      rw [hpos, List.range_succ_eq_map]
      simp
    rw [hhead]
    have hcur : (if b[i] = ac then ent a b i (k + 0)
        else min (ent a b i (k + 0)) (min left (ent a b i (k + 1))) + 1)
        = ent a b (i + 1) (k + 1) := by
      rw [ent_succ_succ hi hklt, hac, hleft]
      norm_num
    rw [hcur]
    have hps' : (List.range (a.length - k)).map
        ((fun t => ent a b i (k + t)) ∘ Nat.succ)
        = (List.range (a.length + 1 - (k + 1))).map
            (fun t => ent a b i ((k + 1) + t)) := by
      have h2 : a.length + 1 - (k + 1) = a.length - k := by omega
      rw [h2]
      apply List.map_congr_left
      intro t ht
      simp only [Function.comp_apply]
      congr 1
      omega
    rw [hps', ih (k + 1) _ _ hrest (by omega) rfl rfl]
    have hsp : a.length - k = (a.length - (k + 1)) + 1 := by omega
    rw [hsp, List.range_succ_eq_map, List.map_cons, List.map_map]
    simp only [Nat.add_zero]
    congr 1
    apply List.map_congr_left
    intro t ht
    simp only [Function.comp_apply]
    congr 1
    omega

lemma levRows_spec (a b : List Char) :
    ∀ (bs : List Char) (i0 : Nat), bs = b.drop i0 → i0 ≤ b.length →
      levRows a bs ((List.range (a.length + 1)).map (fun j => ent a b i0 j)) (i0 + 1)
        = (List.range (a.length + 1)).map (fun j => ent a b b.length j) := by
  intro bs
  induction bs with
  | nil =>
    intro i0 hbs hle
    have : b.length ≤ i0 := by
      by_contra hlt
      push_neg at hlt
      have := List.drop_eq_getElem_cons (l := b) (n := i0) hlt
      rw [← hbs] at this
      exact List.noConfusion this
    have hi0 : i0 = b.length := by omega
    rw [levRows, hi0]
  | cons bc bs' ih =>
    intro i0 hbs hle
    have hlt : i0 < b.length := by
      by_contra hge
      push_neg at hge
      rw [List.drop_eq_nil_of_le hge] at hbs
      exact List.noConfusion hbs
    have hdrop : bc :: bs' = b[i0] :: b.drop (i0 + 1) := by
      rw [hbs]
      exact List.drop_eq_getElem_cons hlt
    have hpair : bc = b[i0] ∧ bs' = b.drop (i0 + 1) := by
      rw [List.cons.injEq] at hdrop
      exact hdrop
    rw [levRows]
    have hrow : (i0 + 1) :: buildRow bc a
        ((List.range (a.length + 1)).map (fun j => ent a b i0 j)) (i0 + 1)
        = (List.range (a.length + 1)).map (fun j => ent a b (i0 + 1) j) := by
      rw [hpair.1]
      rw [buildRow_spec a b i0 hlt a 0 _ _ (by rw [List.drop_zero]) (by omega) ?_
        (by rw [ent_zero_right (by omega)])]
      · rw [List.range_succ_eq_map, List.map_cons, List.map_map]
        rw [ent_zero_right (by omega : i0 + 1 ≤ b.length)]
        congr 1
        apply List.map_congr_left
        intro t ht
        simp only [Function.comp_apply]
        congr 1
        omega
      · simp only [Nat.sub_zero]
        apply List.map_congr_left
        intro t ht
        congr 1
        omega
    rw [hrow]
    exact ih (i0 + 1) hpair.2 (by omega)

/-- The matrix computed by the source's `similarity` equals the classic
Levenshtein distance of the two strings. -/
lemma matrixDist_eq_levSpec (a b : List Char) : matrixDist a b = levSpec a b := by
  unfold matrixDist
  have hinit : (List.range (a.length + 1)).map (fun j => ent a b 0 j)
      = List.range (a.length + 1) := by
    have hcg : ∀ j ∈ List.range (a.length + 1), ent a b 0 j = id j := by
      intro j hj
      rw [ent_zero_left (by
        have := List.mem_range.mp hj
        omega)]
      rfl
    rw [List.map_congr_left hcg, List.map_id]
  rw [← hinit, levRows_spec a b b (0 : Nat) (by rw [List.drop_zero]) (by omega)]
  rw [List.range_succ, List.map_append]
  simp only [List.map_cons, List.map_nil]
  rw [List.getLastD_concat]
  unfold ent
  rw [List.take_length, List.take_length, levSpec_reverse, levSpec_comm]

/-- Case-insensitive literal-pattern test at the head of a list
(the pattern is given in lowercase, as in the source regexes). -/
def leadEqCI : List Char → List Char → Bool
  | [], _ => true
  | _ :: _, [] => false
  | p :: ps, c :: cs => p = c.toLower && leadEqCI ps cs

/-- Substring test (JS `String.prototype.includes` / regex alternation of
literal words). -/
def occursIn (needle : List Char) : List Char → Bool
  | [] => needle.isEmpty
  | l@(_ :: rest) => (needle.isPrefixOf l) || occursIn needle rest

/-- Index of the first occurrence of `cl`, failing at a line terminator
(the lazy `.*?` before a literal closer cannot cross a line terminator). -/
def findLazy (cl : Char) : List Char → Option Nat
  | [] => none
  | c :: rest =>
    if c = cl then some 0
    else if isLineTerm c then none
    else (findLazy cl rest).map (· + 1)

/-- Index of the last occurrence of `cl` reachable by a greedy `.*` (no line
terminator strictly before it). -/
def findGreedy (cl : Char) : List Char → Option Nat
  | [] => none
  | c :: rest =>
    let here : Option Nat := if c = cl then some 0 else none
    if isLineTerm c then here
    else
      match (findGreedy cl rest).map (· + 1) with
      | some k => some k
      | none => here

/-- Index of the last occurrence of the two-character closer `c1 c2`
reachable by a greedy `.*` (used for `".*"\)`). -/
def findG2 (c1 c2 : Char) : List Char → Option Nat
  | [] => none
  | c :: rest =>
    let here : Option Nat :=
      if c = c1 && rest.head? = some c2 then some 0 else none
    if isLineTerm c then here
    else
      match (findG2 c1 c2 rest).map (· + 1) with
      | some k => some k
      | none => here

/-- Index of the first occurrence of `cl`, with no line-terminator guard
(used for the character class `[^\]]+`, which matches line terminators). -/
def findPlain (cl : Char) : List Char → Option Nat
  | [] => none
  | c :: rest =>
    if c = cl then some 0 else (findPlain cl rest).map (· + 1)

/-- Index of the first case-insensitive occurrence of the literal `pat`
reachable by a lazy `.*?` (no line terminator before it). -/
def findCI (pat : List Char) : List Char → Option Nat
  | [] => none
  | l@(c :: rest) =>
    if leadEqCI pat l then some 0
    else if isLineTerm c then none
    else (findCI pat rest).map (· + 1)

/-- Fuel-indexed scanner implementing `String.prototype.replace` with the
empty string: at each position try the matcher `m` (which returns the length
of the match at that position); on success drop the match and, when `g` (the
regex `g` flag) is set, continue scanning, otherwise emit the rest unchanged.
The fuel is always instantiated with the list length, which bounds the
number of steps since every match has positive length. -/
def scanReplFuel (m : List Char → Option Nat) (g : Bool) : Nat → List Char → List Char
  | 0, l => l
  | _ + 1, [] => []
  | fuel + 1, c :: rest =>
    match m (c :: rest) with
    | some k =>
      if g then scanReplFuel m g fuel ((c :: rest).drop k)
      else (c :: rest).drop k
    | none => c :: scanReplFuel m g fuel rest

/-- Replace every (or, without `g`, the first) match of `m` by the empty
string. -/
def scanRepl (m : List Char → Option Nat) (g : Bool) (l : List Char) : List Char :=
  scanReplFuel m g l.length l

/-- Match length of a case-insensitive literal prefix followed by a lazy
`.*?` up to a literal one-character closer. -/
def matchLazy (pat : List Char) (cl : Char) (l : List Char) : Option Nat :=
  if leadEqCI pat l then (findLazy cl (l.drop pat.length)).map (pat.length + · + 1)
  else none

/-- Match length of a case-insensitive literal prefix followed by a greedy
`.*` up to the last reachable one-character closer. -/
def matchGreedy (pat : List Char) (cl : Char) (l : List Char) : Option Nat :=
  if leadEqCI pat l then (findGreedy cl (l.drop pat.length)).map (pat.length + · + 1)
  else none

/-- Match length at the current position for `/\(.*?version.*?\)/gi`: an
opening parenthesis, a lazy stretch up to a case-insensitive `version`, then
a lazy stretch up to the closing parenthesis. -/
def mVerC (l : List Char) : Option Nat :=
  match l with
  | '(' :: rest =>
    match findCI "version".toList rest with
    | some i => (findLazy ')' (rest.drop (i + 7))).map (fun k => 1 + i + 7 + k + 1)
    | none => none
  | _ => none

/-- Does `\s+official.*$` match starting at this position (which begins with
whitespace)?  `.*` must reach the end of the string, so the tail may not
contain a line terminator. -/
def officialTailAt (l : List Char) : Bool :=
  let after := l.dropWhile isJsSpace
  leadEqCI "official".toList after && (after.drop 8).all (fun ch => !(isLineTerm ch))

/-- Replacement `.replace(/\s+official.*$/gi, "")`: cut the string at the first
whitespace run followed by `official` whose tail reaches the end. -/
def replOfficialC : List Char → List Char
  | [] => []
  | c :: rest =>
    if isJsSpace c && officialTailAt (c :: rest) then []
    else c :: replOfficialC rest

/-- The youtubei.js variant's `cleanTitle`: strips `(feat ...)`,
` - from "..."`, `[...]`, `(...version...)` and a trailing
`\s+official.*`, then trims. -/
def cleanTitle (title : String) : String :=
  let l1 := scanRepl (matchLazy "(feat".toList ')') true title.toList
  let l2 := scanRepl (matchLazy " - from \"".toList '"') true l1
  let l3 := scanRepl (matchGreedy "[".toList ']') true l2
  let l4 := scanRepl mVerC true l3
  let l5 := replOfficialC l4
  String.mk (jsTrim l5)

/-- Match length for `/\(From ".*"\)/i`: literal `(From "`, greedy `.*`,
then the two-character closer `")`. -/
def mFromParenA (l : List Char) : Option Nat :=
  if leadEqCI "(from \"".toList l then (findG2 '"' ')' (l.drop 7)).map (fun k => 7 + k + 2)
  else none

/-- Match length for `/ - feat\..*/i`: literal ` - feat.` and then greedy
`.*` up to the end of the line. -/
def mFeatDashA (l : List Char) : Option Nat :=
  if leadEqCI " - feat.".toList l then
    some (8 + ((l.drop 8).takeWhile (fun ch => !(isLineTerm ch))).length)
  else none

/-- Match length for `/\s+\[[^\]]+\]/g`: a whitespace run, `[`, at least one
non-`]` character, then `]`. -/
def mBrWsA (l : List Char) : Option Nat :=
  match l with
  | [] => none
  | c :: _ =>
    if isJsSpace c then
      let spn := (l.takeWhile isJsSpace).length
      match l.drop spn with
      | '[' :: inner =>
        match findPlain ']' inner with
        | some j => if 1 ≤ j then some (spn + 1 + j + 1) else none
        | none => none
      | _ => none
    else none

/-- The googleapis variant's `cleanTrackName`: strips ` - From "..."`,
`(From "...")`, `(feat. ...)`, ` - feat. ...` (first match each) and every
`\s+[...]` tag, then trims. -/
def cleanTrackName (name : String) : String :=
  let l1 := scanRepl (matchGreedy " - from \"".toList '"') false name.toList
  let l2 := scanRepl mFromParenA false l1
  let l3 := scanRepl (matchGreedy "(feat.".toList ')') false l2
  let l4 := scanRepl mFeatDashA false l3
  let l5 := scanRepl mBrWsA true l4
  String.mk (jsTrim l5)

example : cleanTitle "Tum Hi Ho (feat. Arijit Singh)" = "Tum Hi Ho" := by decide
example : cleanTrackName "Tum Hi Ho (feat. Arijit Singh)" = "Tum Hi Ho" := by decide
example : cleanTitle "Song (Remastered Version)" = "Song" := by decide
example : cleanTitle "Song [Official Video]" = "Song" := by decide
example : cleanTitle "Sauda Khara Khara - From \"Good Newwz\"" = "Sauda Khara Khara" := by decide
example : cleanTrackName "Sauda Khara Khara (From \"Good Newwz\")" = "Sauda Khara Khara" := by decide
example : cleanTrackName "Song [Official Video]" = "Song" := by decide
example : cleanTitle "My Song official audio" = "My Song" := by decide
example : cleanTitle "[Video]" = "" := by decide

example : normalizeC "Hello,   World!" = "hello world" := by decide
example : normalizeA "a_b" = "a b" := by decide
example : normalizeC "a_b" = "a_b" := by decide

/-- JS truthiness of a possibly-absent string (`undefined`, `null` and `""`
are falsy). -/
def truthyS : Option String → Bool
  | none => false
  | some s => !(s == "")

/-- The value `v || undefined`: keep a truthy value, collapse falsy ones to absent. -/
def jsOrUndef (v : Option String) : Option String :=
  if truthyS v then v else none

/-- JS template-literal interpolation of a possibly-undefined value. -/
def jsInterp : Option String → String
  | some s => s
  | none => "undefined"

/-- A track as carried through the conversion request. -/
structure Track where
  name : String
  artists : List String
  youtubeId : Option String := none
  found : Option Bool := none
deriving DecidableEq

/-- A search-result candidate of the youtubei.js variant, with the fields
read by `searchYouTubeTrack` (each may be absent). -/
structure Cand where
  id : Option String
  title : Option String
  author : Option String
  artists : Option (List String)
deriving DecidableEq

/-- The value `r.artists?.map(x => x.name).join(" ")` with `?? ""` applied afterwards. -/
def jsArtistsJoin (r : Cand) : String :=
  (r.artists.map (String.intercalate " ")).getD ""

/-- The value `(r.author || r.artists?.map(x => x.name).join(" ")) ?? ""`. -/
def jsAuthor (r : Cand) : String :=
  match r.author with
  | some a => if a = "" then jsArtistsJoin r else a
  | none => jsArtistsJoin r

/-- Test `/official|audio|soundtrack|ost/.test(titleNorm)`. -/
def posSignal (s : String) : Bool :=
  occursIn "official".toList s.toList || occursIn "audio".toList s.toList ||
  occursIn "soundtrack".toList s.toList || occursIn "ost".toList s.toList

/-- Test `/slowed|reverb|sped up|remix|live/.test(titleNorm)`. -/
def negSignal (s : String) : Bool :=
  occursIn "slowed".toList s.toList || occursIn "reverb".toList s.toList ||
  occursIn "sped up".toList s.toList || occursIn "remix".toList s.toList ||
  occursIn "live".toList s.toList

/-- The per-candidate score of `searchYouTubeTrack`:
`similarity(normalize(name), titleNorm) * 2`, `+1` for an artist hit,
`+0.3` for a positive title signal, `-1` for a negative one. -/
def scoreCand (name : String) (artistOpt : Option String) (r : Cand) : ℚ :=
  let titleNorm := normalizeC (r.title.getD "")
  let artistNorm := normalizeC (jsAuthor r)
  let s0 := similarity (normalizeC name) titleNorm * 2
  let s1 :=
    if truthyS artistOpt &&
        occursIn (normalizeC (artistOpt.getD "")).toList artistNorm.toList
    then s0 + 1 else s0
  let s2 := if posSignal titleNorm then s1 + 3 / 10 else s1
  if negSignal titleNorm then s2 - 1 else s2

/-- The five query templates of `searchYouTubeTrack`. -/
def genQueries (name artist : String) : List String :=
  [name ++ " " ++ artist,
   name ++ " official audio",
   name ++ " original song",
   name ++ " " ++ artist ++ " lyrics",
   name ++ " movie song"]

/-- One step of the best-candidate loop:
`if (score > bestScore) { bestScore = score; bestMatch = r; }`. -/
def selStep (name : String) (artistOpt : Option String)
    (acc : Option Cand × ℚ) (r : Cand) : Option Cand × ℚ :=
  let sc := scoreCand name artistOpt r
  if acc.2 < sc then (some r, sc) else acc

/-- Fold the best-candidate loop over one result list. -/
def runSel (name : String) (artistOpt : Option String)
    (init : Option Cand × ℚ) (cands : List Cand) : Option Cand × ℚ :=
  cands.foldl (selStep name artistOpt) init

/-- The youtubei.js variant's `searchYouTubeTrack`, with the two search
collaborators modelled as pure functions from a query to its result list:
score every candidate of every query, keep the best, and accept it only at
score `0.55` or above (`bestScore >= 0.55 ? bestMatch?.id ?? null : null`). -/
def searchYouTubeTrack (music plain : String → List Cand)
    (name : String) (artistOpt : Option String) : Option String :=
  let queries := genQueries name (jsInterp artistOpt)
  let best := queries.foldl
    (fun acc q => runSel name artistOpt acc (music q ++ plain q)) (none, (0 : ℚ))
  if (11 / 20 : ℚ) ≤ best.2 then best.1.bind Cand.id else none

/-- All candidates returned across the generated queries, in scoring order. -/
def allCands (music plain : String → List Cand)
    (name : String) (artistOpt : Option String) : List Cand :=
  (genQueries name (jsInterp artistOpt)).flatMap (fun q => music q ++ plain q)

/-- The youtubei.js variant's `searchYouTubeTrack` with collaborators that
may throw, modelled in `Except`: a thrown search error propagates out of the
function, since this variant has no try/catch. -/
def searchYouTubeTrackE (music plain : String → Except String (List Cand))
    (name : String) (artistOpt : Option String) : Except String (Option String) := do
  let queries := genQueries name (jsInterp artistOpt)
  let mut best : Option Cand × ℚ := (none, 0)
  for q in queries do
    let r1 ← music q
    let r2 ← plain q
    for r in r1 ++ r2 do
      best := selStep name artistOpt best r
  return if (11 / 20 : ℚ) ≤ best.2 then best.1.bind Cand.id else none

/-- The youtubei.js variant's conversion loop: clean each title, resolve it,
and push `{...track, youtubeId: id || undefined, found: !!id}`; an exception
from the search aborts the whole loop. -/
def convertC (music plain : String → Except String (List Cand)) :
    List Track → Except String (List Track)
  | [] => .ok []
  | t :: rest =>
    match searchYouTubeTrackE music plain (cleanTitle t.name) t.artists.head? with
    | .error e => .error e
    | .ok vid =>
      match convertC music plain rest with
      | .error e => .error e
      | .ok rs =>
        .ok ({ t with youtubeId := jsOrUndef vid, found := some (truthyS vid) } :: rs)

/-- The JSON value found in the request body's `tracks` field: an array of
tracks, or some other primitive/object (with its JS truthiness). -/
inductive JVal where
  | jarr (ts : List Track)
  | jprim (truthy : Bool)
deriving DecidableEq

/-- Response of the youtubei.js variant's handler. -/
structure RespC where
  status : Nat
  tracks : Option (List Track)
  total : Option Nat
  success : Option Nat
  error : Option String
deriving DecidableEq

/-- The youtubei.js variant's request handler: no validation of `tracks`
(iterating a non-array throws, caught as a 500), conversion, and the
response payload; any exception yields a 500 error response. -/
def handleConvertC (music plain : String → Except String (List Cand))
    (body : Option JVal) : RespC :=
  match body with
  | some (.jarr ts) =>
    match convertC music plain ts with
    | .ok rs =>
      { status := 200, tracks := some rs, total := some ts.length,
        success := some ((rs.filter (fun t => t.found == some true)).length),
        error := none }
    | .error e =>
      { status := 500, tracks := none, total := none, success := none,
        error := some e }
  | _ =>
    { status := 500, tracks := none, total := none, success := none,
      error := some "tracks is not iterable" }

/-- A search item of the googleapis variant (`item.snippet?.title`,
`item.id?.videoId`, each possibly absent). -/
structure ItemA where
  title : Option String
  videoId : Option String
deriving DecidableEq

/-- The googleapis search response: HTTP `ok` flag and the parsed
`data.items` (possibly absent). -/
structure FetchResp where
  ok : Bool
  itemsOpt : Option (List ItemA)
deriving DecidableEq

/-- The googleapis variant's per-item score: `+2` when the whole normalized
cleaned title occurs in the candidate title, `+0.25` per nonempty word of
the normalized title occurring in it. -/
def scoreItemA (normalizedTitle : String) (item : ItemA) : ℚ :=
  let title := normalizeA (item.title.getD "")
  let base : ℚ := if occursIn normalizedTitle.toList title.toList then 2 else 0
  base + ((normalizedTitle.splitOn " ").filter
      (fun w => !(w == "") && occursIn w.toList title.toList)).length * (1 / 4)

/-- The googleapis variant's `searchYouTubeMusic`: a thrown fetch error or a
non-OK response yields `null`; otherwise pick the best-scoring of the items
(ties and an all-zero round keep `items[0]`) and return its
`id?.videoId ?? null`. -/
def searchYouTubeMusicA (resp : Except String FetchResp)
    (cleanedTitle : String) : Option String :=
  match resp with
  | .error _ => none
  | .ok r =>
    if !r.ok then none
    else
      match r.itemsOpt with
      | none => none
      | some [] => none
      | some (it0 :: rest) =>
        let normalizedTitle := normalizeA cleanedTitle
        let best := (it0 :: rest).foldl (fun acc item =>
          let sc := scoreItemA normalizedTitle item
          if acc.2 < sc then (item, sc) else acc) (it0, (0 : ℚ))
        best.1.videoId

/-- The googleapis variant's search query:
`` `${cleanedName} ${primaryArtist} official audio` `` with
`track.artists?.[0] ?? ""`. -/
def queryA (t : Track) : String :=
  cleanTrackName t.name ++ " " ++ t.artists.headD "" ++ " official audio"

/-- One iteration of the googleapis variant's conversion loop. -/
def convResultA (fetch : String → Except String FetchResp) (t : Track) : Track :=
  let vid := searchYouTubeMusicA (fetch (queryA t)) (cleanTrackName t.name)
  { t with youtubeId := jsOrUndef vid, found := some (truthyS vid) }

/-- The googleapis variant's conversion loop over the whole track list. -/
def convertA (fetch : String → Except String FetchResp) (ts : List Track) : List Track :=
  ts.map (convResultA fetch)

/-- Response of the googleapis variant's handler. -/
structure RespA where
  status : Nat
  error : Option String
  tracks : Option (List Track)
  youtubePlaylistUrl : Option String
  successfulConversions : Option Nat
  totalTracks : Option Nat
deriving DecidableEq

/-- The googleapis variant's request handler: `tracks` must be a (possibly
empty) array or the request fails with 400; a missing API key throws (500);
otherwise every track is converted, successes are counted, and the playlist
link is derived from the first converted track's id when present. -/
def handleConvertA (apiKey : Option String) (body : Option JVal)
    (fetch : String → Except String FetchResp) : RespA :=
  match body with
  | some (.jarr ts) =>
    if !truthyS apiKey then
      { status := 500, error := some "YouTube API key not configured",
        tracks := none, youtubePlaylistUrl := none,
        successfulConversions := none, totalTracks := none }
    else
      let converted := convertA fetch ts
      let succ := (converted.filter (fun t => t.found == some true)).length
      let url : Option String :=
        match converted.head? with
        | some t0 =>
          match t0.youtubeId with
          | some vid =>
            if vid = "" then none
            else some ("https://music.youtube.com/watch?v=" ++ vid ++ "&list=RD" ++ vid)
          | none => none
        | none => none
      { status := 200, error := none, tracks := some converted,
        youtubePlaylistUrl := url, successfulConversions := some succ,
        totalTracks := some ts.length }
  | _ =>
    { status := 400, error := some "Tracks array is required",
      tracks := none, youtubePlaylistUrl := none,
      successfulConversions := none, totalTracks := none }

lemma runSel_snd_le (name : String) (artistOpt : Option String) :
    ∀ (l : List Cand) (init : Option Cand × ℚ), init.2 ≤ (runSel name artistOpt init l).2 := by
  intro l
  induction l with
  | nil => intro init; exact le_refl _
  | cons r rest ih =>
    intro init
    have step : init.2 ≤ (selStep name artistOpt init r).2 := by
      unfold selStep
      by_cases h : init.2 < scoreCand name artistOpt r
      · rw [if_pos h]; exact le_of_lt h
      · rw [if_neg h]
    exact le_trans step (ih (selStep name artistOpt init r))

lemma runSel_score_le (name : String) (artistOpt : Option String) :
    ∀ (l : List Cand) (init : Option Cand × ℚ) (r : Cand), r ∈ l →
      scoreCand name artistOpt r ≤ (runSel name artistOpt init l).2 := by
  intro l
  induction l with
  | nil => intro init r hr; exact absurd hr (List.not_mem_nil r)
  | cons c rest ih =>
    intro init r hr
    rcases List.mem_cons.mp hr with hr | hr
    · subst hr
      have step : scoreCand name artistOpt r ≤ (selStep name artistOpt init r).2 := by
        unfold selStep
        by_cases h : init.2 < scoreCand name artistOpt r
        · rw [if_pos h]
        · rw [if_neg h]
          push_neg at h
          exact h
      exact le_trans step (runSel_snd_le name artistOpt rest _)
    · exact ih _ r hr

lemma runSel_fst_cases (name : String) (artistOpt : Option String) :
    ∀ (l : List Cand) (init : Option Cand × ℚ),
      (runSel name artistOpt init l = init) ∨
      ∃ c ∈ l, (runSel name artistOpt init l).1 = some c ∧
        (runSel name artistOpt init l).2 = scoreCand name artistOpt c := by
  intro l
  induction l with
  | nil => intro init; exact Or.inl rfl
  | cons r rest ih =>
    intro init
    rcases ih (selStep name artistOpt init r) with h | ⟨c, hc, h1, h2⟩
    · unfold selStep at h
      by_cases hlt : init.2 < scoreCand name artistOpt r
      · rw [if_pos hlt] at h
        refine Or.inr ⟨r, List.mem_cons_self r rest, ?_, ?_⟩
        · show (runSel name artistOpt init (r :: rest)).1 = some r
          unfold runSel List.foldl
          show (runSel name artistOpt (selStep name artistOpt init r) rest).1 = some r
          unfold selStep
          rw [if_pos hlt, h]
        · show (runSel name artistOpt init (r :: rest)).2 = scoreCand name artistOpt r
          unfold runSel List.foldl
          show (runSel name artistOpt (selStep name artistOpt init r) rest).2
            = scoreCand name artistOpt r
          unfold selStep
          rw [if_pos hlt, h]
      · rw [if_neg hlt] at h
        refine Or.inl ?_
        show runSel name artistOpt (selStep name artistOpt init r) rest = init
        unfold selStep
        rw [if_neg hlt, h]
    · exact Or.inr ⟨c, List.mem_cons_of_mem r hc, h1, h2⟩

lemma foldl_over_flatMap {α β γ : Type} (f : γ → β → γ) (g : α → List β) :
    ∀ (l : List α) (init : γ),
      l.foldl (fun acc q => (g q).foldl f acc) init = (l.flatMap g).foldl f init := by
  intro l
  induction l with
  | nil => intro init; rfl
  | cons q qs ih =>
    intro init
    rw [List.flatMap_cons, List.foldl_append, List.foldl_cons]
    exact ih ((g q).foldl f init)

lemma searchYouTubeTrack_eq (music plain : String → List Cand)
    (name : String) (artistOpt : Option String) :
    searchYouTubeTrack music plain name artistOpt =
      if (11 / 20 : ℚ) ≤ (runSel name artistOpt (none, 0)
          (allCands music plain name artistOpt)).2
      then (runSel name artistOpt (none, 0)
          (allCands music plain name artistOpt)).1.bind Cand.id
      else none := by
  unfold searchYouTubeTrack allCands runSel
  dsimp only
  rw [foldl_over_flatMap (selStep name artistOpt) (fun q => music q ++ plain q)]

/-- C1 (amended): in `searchYouTubeTrack`, the best-scoring candidate's id
is returned only if its score meets the 0.55 acceptance threshold; when the
best score is below the threshold, or no query returns any candidate, no id
is returned; and a returned id always belongs to a candidate that scores at
least as high as every candidate of every generated query. -/
theorem searchYouTubeTrack_threshold (music plain : String → List Cand)
    (name : String) (artistOpt : Option String) :
    ((runSel name artistOpt (none, 0) (allCands music plain name artistOpt)).2 < 11 / 20 →
      searchYouTubeTrack music plain name artistOpt = none) ∧
    ((∀ q ∈ genQueries name (jsInterp artistOpt), music q = [] ∧ plain q = []) →
      searchYouTubeTrack music plain name artistOpt = none) ∧
    (∀ v, searchYouTubeTrack music plain name artistOpt = some v →
      ∃ c ∈ allCands music plain name artistOpt,
        (runSel name artistOpt (none, 0) (allCands music plain name artistOpt)).1 = some c ∧
        c.id = some v ∧ (11 / 20 : ℚ) ≤ scoreCand name artistOpt c ∧
        ∀ r ∈ allCands music plain name artistOpt,
          scoreCand name artistOpt r ≤ scoreCand name artistOpt c) := by
  refine ⟨?_, ?_, ?_⟩
  · intro hlt
    rw [searchYouTubeTrack_eq, if_neg (not_le.mpr hlt)]
  · intro hempty
    have hnil : allCands music plain name artistOpt = [] := by
      unfold allCands
      rw [List.flatMap_eq_nil_iff]
      intro q hq
      rw [(hempty q hq).1, (hempty q hq).2]
      rfl
    rw [searchYouTubeTrack_eq, hnil]
    unfold runSel
    rw [List.foldl_nil]
    norm_num
  · intro v hv
    rw [searchYouTubeTrack_eq] at hv
    by_cases hth : (11 / 20 : ℚ) ≤
        (runSel name artistOpt (none, 0) (allCands music plain name artistOpt)).2
    · rw [if_pos hth] at hv
      obtain ⟨c, hc1, hc2⟩ := Option.bind_eq_some.mp hv
      rcases runSel_fst_cases name artistOpt (allCands music plain name artistOpt)
          (none, 0) with hcase | ⟨c', hmem, h1, h2⟩
      · rw [hcase] at hc1
        exact absurd hc1 (Option.noConfusion)
      · rw [h1] at hc1
        have hcc : c' = c := Option.some.inj hc1
        subst hcc
        refine ⟨c', hmem, h1, hc2, ?_, ?_⟩
        · rw [← h2]; exact hth
        · intro r hr
          have := runSel_score_le name artistOpt
            (allCands music plain name artistOpt) (none, 0) r hr
          rw [h2] at this
          exact this
    · rw [if_neg hth] at hv
      exact absurd hv (Option.noConfusion)

/-- C1 witness: with collaborators that return no candidates for any query,
no id is returned. -/
theorem searchYouTubeTrack_threshold_witness :
    searchYouTubeTrack (fun _ => []) (fun _ => []) "a" none = none :=
  (searchYouTubeTrack_threshold (fun _ => []) (fun _ => []) "a" none).2.1
    (fun _ _ => ⟨rfl, rfl⟩)

/-- C1 counterexample: the function `searchYouTubeMusic` (the googleapis
match selector) has no acceptance threshold: with a single candidate
whose title shares nothing with the source title (score 0), it still returns
that candidate's id, while `searchYouTubeTrack` rejects the same zero-scoring
candidate because 0 is below the 0.55 threshold. -/
theorem searchYouTubeMusicA_no_threshold :
    searchYouTubeMusicA
      (.ok { ok := true, itemsOpt := some [{ title := some "xyz", videoId := some "v1" }] })
      "abc" = some "v1" ∧
    searchYouTubeTrack
      (fun _ => [{ id := some "v1", title := some "xyz", author := none, artists := none }])
      (fun _ => []) "abc" none = none := by
  constructor
  · with_unfolding_all decide
  · with_unfolding_all decide

/-- C2: the conversion emits exactly one `ConversionResult` per input track, in
input order: the output list has the same length as the input, and the
`i`-th result carries the `i`-th source track's `name` and `artists`. -/
theorem convertA_length_and_order (fetch : String → Except String FetchResp)
    (ts : List Track) :
    (convertA fetch ts).length = ts.length ∧
    ∀ i : Nat, ((convertA fetch ts)[i]?).map (fun r => (r.name, r.artists))
      = (ts[i]?).map (fun t => (t.name, t.artists)) := by
  constructor
  · simp [convertA]
  · intro i
    rw [convertA, List.getElem?_map, Option.map_map]
    cases h : ts[i]? <;> rfl

/-- C4: every emitted result has `found` true exactly when a matched id is
present: `found = some (youtubeId.isSome)`, so no result pairs `found=true`
with an absent id or `found=false` with a present id. -/
theorem convertA_found_iff_id (fetch : String → Except String FetchResp)
    (ts : List Track) (r : Track) (hr : r ∈ convertA fetch ts) :
    r.found = some r.youtubeId.isSome := by
  obtain ⟨t, ht, rfl⟩ := List.mem_map.mp hr
  show (convResultA fetch t).found = some (convResultA fetch t).youtubeId.isSome
  unfold convResultA
  dsimp only
  cases hv : searchYouTubeMusicA (fetch (queryA t)) (cleanTrackName t.name) with
  | none => simp [jsOrUndef, truthyS]
  | some s =>
    by_cases hs : s = "" <;> simp [jsOrUndef, truthyS, hs]

/-- C4 witness: the single result of a one-track batch whose fetch fails
satisfies the invariant. -/
theorem convertA_found_iff_id_witness :
    ({ name := "n", artists := ["a"], youtubeId := none, found := some false } : Track).found
      = some (Option.isSome
          ({ name := "n", artists := ["a"], youtubeId := none, found := some false } : Track).youtubeId) :=
  convertA_found_iff_id (fun _ => .error "e") [{ name := "n", artists := ["a"] }] _
    (by with_unfolding_all decide)

/-- C10: an empty `tracks` array is structurally valid: the 400 validation
fires exactly when the field is missing or not an array, and an empty array
yields a 200 payload with an empty result list, zero totals and a null
playlist link. -/
theorem handleConvertA_empty_tracks (apiKey : Option String)
    (fetch : String → Except String FetchResp) (hkey : truthyS apiKey = true) :
    handleConvertA apiKey (some (.jarr [])) fetch =
      { status := 200, error := none, tracks := some [], youtubePlaylistUrl := none,
        successfulConversions := some 0, totalTracks := some 0 } ∧
    ∀ body : Option JVal, ((handleConvertA apiKey body fetch).status = 400 ↔
      ∀ ts : List Track, body ≠ some (.jarr ts)) := by
  constructor
  · simp [handleConvertA, hkey, convertA]
  · intro body
    cases body with
    | none =>
      simp only [handleConvertA]
      constructor
      · intro _ ts h
        exact Option.noConfusion h
      · intro _
        trivial
    | some v =>
      cases v with
      | jarr ts =>
        have hst : (handleConvertA apiKey (some (.jarr ts)) fetch).status = 200 := by
          simp [handleConvertA, hkey]
        constructor
        · intro h
          rw [hst] at h
          exact absurd h (by decide)
        · intro h
          exact absurd rfl (h ts)
      | jprim b =>
        simp only [handleConvertA]
        constructor
        · intro _ ts h
          exact JVal.noConfusion (Option.some.inj h)
        · intro _
          trivial

/-- C10 witness: concrete instantiation with a configured key. -/
theorem handleConvertA_empty_tracks_witness :
    handleConvertA (some "k") (some (.jarr [])) (fun _ => Except.error "e") =
      { status := 200, error := none, tracks := some [], youtubePlaylistUrl := none,
        successfulConversions := some 0, totalTracks := some 0 } :=
  (handleConvertA_empty_tracks (some "k") (fun _ => Except.error "e") (by decide)).1

/-- C3 (amended): in the googleapis variant, a search failure for one track
(thrown fetch error or non-OK response) is absorbed: the batch keeps its
length and that track's result is simply unmatched. -/
theorem convertA_absorbs_search_failure (fetch : String → Except String FetchResp)
    (ts : List Track) (i : Nat) (t : Track) (ht : ts[i]? = some t)
    (hfail : (∃ e, fetch (queryA t) = .error e) ∨
      ∃ r, fetch (queryA t) = .ok r ∧ r.ok = false) :
    (convertA fetch ts).length = ts.length ∧
    (convertA fetch ts)[i]? = some { t with youtubeId := none, found := some false } := by
  have hnone : searchYouTubeMusicA (fetch (queryA t)) (cleanTrackName t.name) = none := by
    rcases hfail with ⟨e, he⟩ | ⟨r, hr, hok⟩
    · rw [he]
      rfl
    · rw [hr]
      simp [searchYouTubeMusicA, hok]
  constructor
  · simp [convertA]
  · rw [convertA, List.getElem?_map, ht]
    have hms : Option.map (convResultA fetch) (some t) = some (convResultA fetch t) := rfl
    rw [hms]
    unfold convResultA
    rw [hnone]
    rfl

/-- C3 (amended) witness: a three-track batch whose fetch always throws
still yields three results, the middle one unmatched. -/
theorem convertA_absorbs_search_failure_witness :
    (convertA (fun _ => Except.error "down")
        [{ name := "A", artists := ["X"] }, { name := "B", artists := ["Y"] },
         { name := "C", artists := ["Z"] }]).length
      = ([{ name := "A", artists := ["X"] }, { name := "B", artists := ["Y"] },
          { name := "C", artists := ["Z"] }] : List Track).length ∧
    (convertA (fun _ => Except.error "down")
        [{ name := "A", artists := ["X"] }, { name := "B", artists := ["Y"] },
         { name := "C", artists := ["Z"] }])[1]?
      = some { name := "B", artists := ["Y"], youtubeId := none, found := some false } :=
  convertA_absorbs_search_failure (fun _ => Except.error "down") _ 1
    { name := "B", artists := ["Y"] } (by with_unfolding_all decide)
    (Or.inl ⟨"down", rfl⟩)

set_option maxRecDepth 10000 in
/-- C3 counterexample: in the youtubei.js variant there is no local catch: a
search collaborator that throws while resolving the first track aborts the
whole batch — the structurally valid two-track request yields a 500 error
payload with no results at all, and the second track is never processed. -/
theorem convertC_error_aborts_batch :
    handleConvertC (fun _ => .error "boom") (fun _ => .error "boom")
      (some (.jarr [{ name := "A", artists := ["X"] }, { name := "B", artists := ["Y"] }]))
    = { status := 500, tracks := none, total := none, success := none,
        error := some "boom" } := by
  with_unfolding_all decide

/-- C5: the title edit similarity equals `1 - d / max(len a, len b)` where
`d` is the classic unit-cost insert/delete/substitute edit distance, is `0`
whenever either string is empty, and in particular
`editSimilarity("abc","abc") = 1` and `editSimilarity("abc","xyz") = 0`. -/
theorem similarity_classic (a b : String) :
    ((a = "" ∨ b = "") → similarity a b = 0) ∧
    (a ≠ "" → b ≠ "" →
      similarity a b = 1 - (levSpec a.toList b.toList : ℚ) /
        (max a.toList.length b.toList.length : ℕ)) ∧
    similarity "abc" "abc" = 1 ∧
    similarity "abc" "xyz" = 0 := by
  refine ⟨?_, ?_, ?_, ?_⟩
  · intro h
    rw [similarity, if_pos h]
  · intro ha hb
    rw [similarity, if_neg (by tauto), matrixDist_eq_levSpec]
  · rw [similarity, if_neg (by decide : ¬("abc" = "" ∨ "abc" = ""))]
    rw [(by decide : matrixDist "abc".toList "abc".toList = 0)]
    rw [(by decide : "abc".toList.length ⊔ "abc".toList.length = 3)]
    norm_num
  · rw [similarity, if_neg (by decide : ¬("abc" = "" ∨ "xyz" = ""))]
    rw [(by decide : matrixDist "abc".toList "xyz".toList = 3)]
    rw [(by decide : "abc".toList.length ⊔ "xyz".toList.length = 3)]
    norm_num

/-- C5 witness: the nonempty-strings clause at a concrete pair. -/
theorem similarity_classic_witness :
    similarity "ab" "b" = 1 - (levSpec "ab".toList "b".toList : ℚ) /
      (max "ab".toList.length "b".toList.length : ℕ) :=
  (similarity_classic "ab" "b").2.1 (by decide) (by decide)

/-- C6 counterexample: the googleapis `cleanTrackName` has no pattern for
parentheticals containing the word `version` — its five regexes cover only
feature credits, `From "..."` attributions and bracketed tags — so a
`(Remastered Version)` decoration survives it unchanged instead of being
removed. -/
theorem cleanTrackName_keeps_version :
    cleanTrackName "Song (Remastered Version)" = "Song (Remastered Version)" ∧
    "Song (Remastered Version)" ≠ "Song" := by
  constructor <;> decide

/-- C6 (amended): the youtubei.js `cleanTitle` removes all four configured
decoration patterns — feature-credit parentheticals, ` - From "..."`
attributions, bracketed annotations, and parentheticals containing the word
`version` — each replaced by the empty string and the result trimmed, and
`clean("Tum Hi Ho (feat. Arijit Singh)") = "Tum Hi Ho"` holds in both
cleaners; the googleapis `cleanTrackName` removes its feature-credit,
attribution and bracket forms but has no `version` pattern. -/
theorem clean_removes_decorations :
    cleanTitle "Tum Hi Ho (feat. Arijit Singh)" = "Tum Hi Ho" ∧
    cleanTrackName "Tum Hi Ho (feat. Arijit Singh)" = "Tum Hi Ho" ∧
    cleanTitle "Sauda Khara Khara - From \"Good Newwz\"" = "Sauda Khara Khara" ∧
    cleanTrackName "Sauda Khara Khara (From \"Good Newwz\")" = "Sauda Khara Khara" ∧
    cleanTitle "Song [Official Video]" = "Song" ∧
    cleanTitle "Song (Remastered Version)" = "Song" := by
  refine ⟨?_, ?_, ?_, ?_, ?_, ?_⟩ <;> decide

/-- C7 counterexample: the generated queries are never trimmed (with an
empty artist the first query keeps its trailing space, and differs from the
trimmed template), a cleaned-empty title is used as-is with no fallback to
the uncleaned original, and the first query of an all-empty track is empty
after trimming. -/
theorem genQueries_untrimmed_no_fallback :
    (genQueries "Tum" "").head? = some "Tum " ∧
    "Tum " ≠ "Tum" ∧
    cleanTitle "[Video]" = "" ∧
    (genQueries (cleanTitle "[Video]") "A").head? = some " A" ∧
    String.mk (jsTrim ((genQueries "" "").headD "x").toList) = "" := by
  refine ⟨?_, ?_, ?_, ?_, ?_⟩ <;> decide

/-- C7 (amended): the query sequence is exactly the five listed templates —
finite, nonempty, first element the untrimmed `"{name} {artist}"`
concatenation — and every query is nonempty whenever the (cleaned) name is
nonempty; queries are built from the cleaned title even when cleaning
yields the empty string, with no fallback. -/
theorem genQueries_shape (n a : String) :
    genQueries n a = [n ++ " " ++ a, n ++ " official audio", n ++ " original song",
      n ++ " " ++ a ++ " lyrics", n ++ " movie song"] ∧
    (genQueries n a).length = 5 ∧
    (genQueries n a).head? = some (n ++ " " ++ a) ∧
    (n ≠ "" → ∀ q ∈ genQueries n a, q ≠ "") := by
  refine ⟨rfl, rfl, rfl, ?_⟩
  intro hn q hq
  have hne : ∀ s : String, n ++ s ≠ "" := by
    intro s h
    apply hn
    have hlen := congrArg String.length h
    rw [String.length_append] at hlen
    have hn0 : n.length = 0 := by
      have : ("" : String).length = 0 := rfl
      omega
    cases hl : n.toList with
    | nil =>
      cases n with
      | mk data =>
        cases data with
        | nil => rfl
        | cons c cs => exact absurd hl (by simp [String.toList])
    | cons c cs =>
      exfalso
      have : n.toList.length = 0 := hn0
      rw [hl] at this
      simp at this
  simp only [genQueries, List.mem_cons, List.not_mem_nil, or_false] at hq
  rcases hq with rfl | rfl | rfl | rfl | rfl
  · rw [String.append_assoc]
    exact hne _
  · exact hne _
  · exact hne _
  · rw [String.append_assoc, String.append_assoc]
    exact hne _
  · exact hne _

/-- C7 witness: the nonemptiness clause at a concrete query. -/
theorem genQueries_shape_witness : ("Tum" ++ " " ++ "A" : String) ≠ "" :=
  (genQueries_shape "Tum" "A").2.2.2 (by decide) ("Tum" ++ " " ++ "A")
    (by decide)

/-- C8 counterexample: the youtubei.js `normalize` keeps underscores — a
character that is neither alphanumeric nor whitespace — instead of replacing
them with a space. -/
theorem normalizeC_keeps_underscore :
    normalizeC "a_b" = "a_b" ∧ "a_b" ≠ "a b" :=
  ⟨by decide, by decide⟩

lemma isAzDigitSpace_eq_class (c : Char) :
    isAzDigitSpace c = (c.isAlphanum || isJsSpace c) := by
  cases h1 : c.isLower <;> cases h2 : c.isUpper <;> cases h3 : c.isDigit <;>
    cases h4 : isJsSpace c <;>
    simp [isAzDigitSpace, Char.isAlphanum, Char.isAlpha, h1, h2, h3, h4]

lemma isWordCharSpace_eq_class (c : Char) :
    (isWordChar c || isJsSpace c) = (c.isAlphanum || c = '_' || isJsSpace c) := by
  by_cases h0 : c = '_' <;>
    cases h1 : c.isLower <;> cases h2 : c.isUpper <;> cases h3 : c.isDigit <;>
      cases h4 : isJsSpace c <;>
      simp [isWordChar, Char.isAlphanum, Char.isAlpha, h0, h1, h2, h3, h4]

lemma toLower_of_jsSpace {c : Char} (h : isJsSpace c = true) : c.toLower = c := by
  have hm : c ∈ jsSpaces := by
    have h' : List.elem c jsSpaces = true := h
    exact List.elem_iff.mp h'
  fin_cases hm <;> decide

lemma collapseWsAux_true_all_space :
    ∀ (l : List Char), (∀ c ∈ l, isJsSpace c = true) → collapseWsAux true l = [] := by
  intro l
  induction l with
  | nil => intro _; rfl
  | cons c rest ih =>
    intro h
    unfold collapseWsAux
    rw [h c (List.mem_cons_self c rest), if_pos rfl]
    exact ih (fun d hd => h d (List.mem_cons_of_mem c hd))

lemma collapseWs_all_space (l : List Char) (h : ∀ c ∈ l, isJsSpace c = true) :
    collapseWs l = [] ∨ collapseWs l = [' '] := by
  cases l with
  | nil => exact Or.inl rfl
  | cons c rest =>
    right
    unfold collapseWs collapseWsAux
    simp only [h c (List.mem_cons_self c rest), if_pos, Bool.false_eq_true, if_false,
      if_true, collapseWsAux_true_all_space rest
        (fun d hd => h d (List.mem_cons_of_mem c hd))]

/-- C8 (amended): the googleapis `normalize` matches the specified pipeline
(lower-case; replace every character that is not an ASCII alphanumeric or
whitespace by a space; collapse whitespace runs; trim), the youtubei.js
`normalize` does the same except that it also keeps underscores (the `\w`
class), and both send whitespace-only input (in particular the empty
string) to the empty string. -/
theorem normalize_characterization (s : String) :
    normalizeA s = normSpec s ∧
    normalizeC s = normSpecW s ∧
    ((∀ c ∈ s.toList, isJsSpace c = true) → normalizeA s = "" ∧ normalizeC s = "") := by
  refine ⟨?_, ?_, ?_⟩
  · unfold normalizeA normSpec
    dsimp only
    have hmap : (s.toList.map Char.toLower).map (fun c => if isAzDigitSpace c then c else ' ')
        = (s.toList.map Char.toLower).map
            (fun c => if c.isAlphanum || isJsSpace c then c else ' ') := by
      apply List.map_congr_left
      intro c _
      rw [isAzDigitSpace_eq_class]
    rw [hmap]
  · unfold normalizeC normSpecW
    dsimp only
    have hmap : (s.toList.map Char.toLower).map
          (fun c => if isWordChar c || isJsSpace c then c else ' ')
        = (s.toList.map Char.toLower).map
            (fun c => if c.isAlphanum || c = '_' || isJsSpace c then c else ' ') := by
      apply List.map_congr_left
      intro c _
      rw [isWordCharSpace_eq_class]
    rw [hmap]
  · intro hws
    have hlower : s.toList.map Char.toLower = s.toList := by
      rw [List.map_congr_left (fun c hc => toLower_of_jsSpace (hws c hc)), List.map_id']
    have hclassA : (s.toList.map (fun c => if isAzDigitSpace c then c else ' '))
        = s.toList := by
      have hpt : ∀ c ∈ s.toList, (if isAzDigitSpace c then c else ' ') = c := by
        intro c hc
        have h2 : isAzDigitSpace c = true := by
          unfold isAzDigitSpace
          rw [hws c hc]
          simp
        rw [if_pos h2]
      rw [List.map_congr_left hpt, List.map_id']
    have hclassC : (s.toList.map (fun c => if isWordChar c || isJsSpace c then c else ' '))
        = s.toList := by
      have hpt : ∀ c ∈ s.toList, (if isWordChar c || isJsSpace c then c else ' ') = c := by
        intro c hc
        have h2 : (isWordChar c || isJsSpace c) = true := by
          rw [hws c hc]
          simp
        rw [if_pos h2]
      rw [List.map_congr_left hpt, List.map_id']
    constructor
    · unfold normalizeA
      dsimp only
      rw [hlower, hclassA]
      rcases collapseWs_all_space s.toList hws with h | h <;> rw [h] <;> decide
    · unfold normalizeC
      dsimp only
      rw [hlower, hclassC]
      rcases collapseWs_all_space s.toList hws with h | h <;> rw [h] <;> decide

/-- C8 (amended) witness: whitespace-only input normalizes to empty in both
variants. -/
theorem normalize_characterization_witness :
    normalizeA "  " = "" ∧ normalizeC "  " = "" :=
  (normalize_characterization "  ").2.2 (by decide)

set_option maxRecDepth 4000 in
/-- C9 counterexample: the negative-signal vocabulary does not contain
`trap` or `mix`, and a candidate whose title additionally contains `live`
can outscore the identical candidate without it when the source title
itself contains the negative word (the similarity term grows by more than
the penalty). -/
theorem negSignal_not_monotone :
    scoreCand "live" none
        { id := some "v", title := some "zz live", author := none, artists := none }
      > scoreCand "live" none
        { id := some "v", title := some "zz", author := none, artists := none } ∧
    negSignal "trap" = false ∧
    negSignal "mix" = false := by
  refine ⟨?_, ?_, ?_⟩
  · with_unfolding_all decide
  · decide
  · decide

/-- C9 (amended): for candidates differing only in the title, if the second
title carries a negative-signal token (vocabulary `slowed`, `reverb`,
`sped up`, `remix`, `live`), the two titles agree on the positive-signal
test, and the source title is at least as edit-similar to the first title
as to the second, then the candidate without the extra negative token
scores at least as high. -/
theorem scoreCand_neg_penalty (name : String) (artistOpt : Option String)
    (c : Cand) (ta tb : String)
    (hneg : negSignal (normalizeC tb) = true)
    (hpos : posSignal (normalizeC ta) = posSignal (normalizeC tb))
    (hsim : similarity (normalizeC name) (normalizeC tb) ≤
      similarity (normalizeC name) (normalizeC ta)) :
    scoreCand name artistOpt { c with title := some tb }
      ≤ scoreCand name artistOpt { c with title := some ta } := by
  unfold scoreCand
  dsimp only
  simp only [Option.getD_some]
  rw [hneg]
  simp only [if_true]
  by_cases hart : (truthyS artistOpt &&
      occursIn (normalizeC (artistOpt.getD "")).toList
        (normalizeC (jsAuthor { c with title := some ta })).toList) = true
  · have hart' : (truthyS artistOpt &&
        occursIn (normalizeC (artistOpt.getD "")).toList
          (normalizeC (jsAuthor { c with title := some tb })).toList) = true := hart
    rw [hart, hart']
    simp only [if_true]
    rw [← hpos]
    by_cases hp : posSignal (normalizeC ta) = true
    · rw [hp]
      simp only [if_true]
      by_cases hna : negSignal (normalizeC ta) = true
      · rw [hna]
        simp only [if_true]
        linarith
      · rw [Bool.not_eq_true] at hna
        rw [hna]
        simp only [Bool.false_eq_true, if_false]
        linarith
    · rw [Bool.not_eq_true] at hp
      rw [hp]
      simp only [Bool.false_eq_true, if_false]
      by_cases hna : negSignal (normalizeC ta) = true
      · rw [hna]
        simp only [if_true]
        linarith
      · rw [Bool.not_eq_true] at hna
        rw [hna]
        simp only [Bool.false_eq_true, if_false]
        linarith
  · have hart' : (truthyS artistOpt &&
        occursIn (normalizeC (artistOpt.getD "")).toList
          (normalizeC (jsAuthor { c with title := some tb })).toList) = false := by
      rw [Bool.not_eq_true] at hart
      exact hart
    rw [Bool.not_eq_true] at hart
    rw [hart, hart']
    simp only [Bool.false_eq_true, if_false]
    rw [← hpos]
    by_cases hp : posSignal (normalizeC ta) = true
    · rw [hp]
      simp only [if_true]
      by_cases hna : negSignal (normalizeC ta) = true
      · rw [hna]
        simp only [if_true]
        linarith
      · rw [Bool.not_eq_true] at hna
        rw [hna]
        simp only [Bool.false_eq_true, if_false]
        linarith
    · rw [Bool.not_eq_true] at hp
      rw [hp]
      simp only [Bool.false_eq_true, if_false]
      by_cases hna : negSignal (normalizeC ta) = true
      · rw [hna]
        simp only [if_true]
        linarith
      · rw [Bool.not_eq_true] at hna
        rw [hna]
        simp only [Bool.false_eq_true, if_false]
        linarith

/-- C9 (amended) witness: without any negative word in the source title,
the candidate without `slowed` scores at least as high. -/
theorem scoreCand_neg_penalty_witness :
    scoreCand "hi" none
        { id := some "v", title := some "hi slowed", author := none, artists := none }
      ≤ scoreCand "hi" none
        { id := some "v", title := some "hi", author := none, artists := none } :=
  scoreCand_neg_penalty "hi" none
    { id := some "v", title := none, author := none, artists := none } "hi" "hi slowed"
    (by decide) (by decide) (by with_unfolding_all decide)
